import Mathlib

/-!
Verification of the binance-futures-simulator engine (src/server.py).

The Python `Decimal` values are embedded as exact rationals (`ℚ`): all the
monetary and quantity arithmetic in the source is exact decimal arithmetic,
and every literal appearing in the engine is a decimal, hence rational.
Python ints (`side`, `leverage`) are embedded as rationals as well, since
they only ever participate in exact `Decimal` arithmetic.  `assert`
statements of the source become hypotheses of the theorems.
-/

namespace FuturesSim

/-- Python `Decimal.quantize(Decimal("0.00"))` rounds to an integer number of
hundredths using banker's rounding (ROUND_HALF_EVEN), Python's default. -/
def roundHalfEven (x : ℚ) : ℤ :=
  let f : ℤ := ⌊x⌋
  let r : ℚ := x - f
  if r < 1/2 then f
  else if 1/2 < r then f + 1
  else if Even f then f else f + 1

/-- Round a rational to two decimal places, ties to even
(`Decimal.quantize(Decimal("0.00"))`). -/
def quantize2 (x : ℚ) : ℚ :=
  (roundHalfEven (100 * x) : ℚ) / 100

/-- Source `Position.__init__` / running state of the single position
(src/server.py lines 13-18).  `side` is 1 for Long, -1 for Short,
0 for None (Flat). -/
structure Position where
  side : ℚ
  quantity : ℚ
  entry_price : ℚ
  leverage : ℚ
  deriving DecidableEq

namespace Position

/-- The initial position: Flat, quantity 0, entry price 0, leverage 1. -/
def init : Position := ⟨0, 0, 0, 1⟩

/-- Source `Position.set_leverage` (lines 20-26): sets leverage if there is no open
position; returns (new position, current leverage). -/
def set_leverage (p : Position) (leverage : ℚ) : Position × ℚ :=
  if p.side = 0 then ({ p with leverage := leverage }, leverage)
  else (p, p.leverage)

/-- Source `Position.increase` (lines 28-36): increases position quantity and
adjusts the entry price to the quantity-weighted average.  The source
asserts `quantity > 0` and `price > 0`; those appear as hypotheses of the
theorems about this function. -/
def increase (p : Position) (quantity price : ℚ) : Position :=
  { p with
    entry_price := (p.quantity * p.entry_price + quantity * price) / (p.quantity + quantity)
    quantity := p.quantity + quantity }

/-- Source `Position.decrease` (lines 38-51): decreases position quantity and
returns the pair (initial investment, pnl); if the remaining quantity is
zero it closes the position (side 0, entry price 0).  The source asserts
`0 < quantity ≤ self.quantity` and `price > 0`; those appear as hypotheses
of the theorems about this function. -/
def decrease (p : Position) (quantity price : ℚ) : Position × (ℚ × ℚ) :=
  let q' := p.quantity - quantity
  let initial := quantity * p.entry_price
  let pnl := p.side * quantity * (price - p.entry_price)
  if q' = 0 then
    ({ p with quantity := q', side := 0, entry_price := 0 }, (initial, pnl))
  else
    ({ p with quantity := q' }, (initial, pnl))

/-- Source `Position.pnl` (lines 53-57): unrealized pnl at the given price. -/
def pnl (p : Position) (price : ℚ) : ℚ :=
  p.side * p.quantity * (price - p.entry_price)

/-- Source `Position.margin` (lines 59-67): percentage of pnl relative to the
initial investment, quantized to two decimal places; 0 when Flat. -/
def margin (p : Position) (price : ℚ) : ℚ :=
  if p.side ≠ 0 then
    quantize2 (100 * p.pnl price / (p.quantity * p.entry_price / p.leverage))
  else 0

/-- Source `Position.value` (lines 69-76): total position value in quote asset,
net of the closing fee. -/
def value (p : Position) (price fee_rate : ℚ) : ℚ :=
  let fee := (p.quantity * p.entry_price + p.pnl price) * fee_rate
  p.quantity * p.entry_price / p.leverage + p.pnl price - fee

/-- Source `Position.liquidation_price` (lines 78-86): liquidation price according
to leverage and fee rate. -/
def liquidation_price (p : Position) (fee_rate : ℚ) : ℚ :=
  let lp := p.entry_price - p.side * p.entry_price / p.leverage
  let fee := lp * p.quantity * fee_rate
  lp + p.side * fee

end Position

/-- An order's side: the `"BUY"` / `"SELL"` strings of the source. -/
inductive OrderSide where
  | buy
  | sell
  deriving DecidableEq

/-- A queued order (the dicts pushed by the client): side, positive
quantity, and an optional limit price (`none` = market order). -/
structure Order where
  side : OrderSide
  quantity : ℚ
  price : Option ℚ
  deriving DecidableEq

/-- The engine state of `Server` that the matching pipeline reads and
writes: the account balance, the position, the fee rate, and the minimum
order value `self.unit` (set to 1 usd in `Server.__init__`, line 120). -/
structure ServerState where
  balance : ℚ
  position : Position
  fee_rate : ℚ
  unit : ℚ
  deriving DecidableEq

/-- The per-order eligibility test of `Server.check_orders` (lines 212-219):
a market order is always eligible; a limit Buy is eligible when
`order_price >= price`, a limit Sell when `order_price <= price`. -/
def eligible (price : ℚ) (o : Order) : Bool :=
  match o.price with
  | none => true
  | some order_price =>
    match o.side with
    | .buy => decide (order_price ≥ price)
    | .sell => decide (order_price ≤ price)

/-- Source `Server.check_orders` (lines 206-220): returns the sublist of orders to
process at the given price.  The input list is not modified. -/
def check_orders (orders : List Order) (price : ℚ) : List Order :=
  orders.filter (eligible price)

/-- The price adjustment of `Server.process_orders` (lines 237-241): for a
limit order with a truthy (present and nonzero) price, the execution price
is replaced by the limit price when `side == BUY and price > order_price`
or `side == SELL and price < order_price`; otherwise it is the tick
price. -/
def execPrice (o : Order) (price : ℚ) : ℚ :=
  match o.price with
  | none => price
  | some order_price =>
    if order_price ≠ 0 ∧
        ((o.side = .buy ∧ price > order_price) ∨ (o.side = .sell ∧ price < order_price)) then
      order_price
    else price

/-- The body of the `for` loop of `Server.process_orders` (lines 231-304)
applied to a single order: every branch removes the order from the queue
and returns, so this function computes the new engine state and the
returned boolean.  `dbLeverage` is the leverage read from the database by
`set_leverage` (line 243). -/
def processOrder (s : ServerState) (o : Order) (dbLeverage : ℚ) (tick : ℚ) :
    ServerState × Bool :=
  let quantity := o.quantity
  let price := execPrice o tick
  let sl := s.position.set_leverage dbLeverage
  let pos := sl.1
  let leverage := sl.2
  if quantity * price / leverage < s.unit then
    -- order removed: value must be greater than 1 usd
    ({ s with position := pos }, false)
  else if (o.side = .buy ∧ (pos.side = 0 ∨ pos.side = 1)) ∨
      (o.side = .sell ∧ (pos.side = -1 ∨ pos.side = 0)) then
    -- open or increase position
    let fee := quantity * price * s.fee_rate
    let cost := quantity * price / leverage + fee
    if s.balance ≥ cost then
      let pos1 := { pos with side := if o.side = OrderSide.buy then 1 else -1 }
      ({ s with balance := s.balance - cost
                position := pos1.increase quantity price }, true)
    else
      -- not enough balance
      ({ s with position := pos }, false)
  else
    if pos.quantity ≥ quantity then
      -- close or decrease position
      let r := pos.decrease quantity price
      let fee := (r.2.1 + r.2.2) * s.fee_rate
      ({ s with balance := s.balance + r.2.1 / leverage + r.2.2 - fee
                position := r.1 }, true)
    else
      -- close and open reverse position
      let remaining := quantity - pos.quantity
      let fee := remaining * price * s.fee_rate
      let cost := remaining * price / leverage + fee
      let total_balance := s.balance + pos.value price s.fee_rate
      if total_balance ≥ cost then
        let r := pos.decrease pos.quantity price
        let fee2 := (r.2.1 + r.2.2) * s.fee_rate
        let bal := s.balance + r.2.1 / leverage + r.2.2 - fee2 - cost
        let pos1 := { r.1 with side := if o.side = OrderSide.buy then 1 else -1 }
        ({ s with balance := bal
                  position := pos1.increase remaining price }, true)
      else
        -- not enough balance
        ({ s with position := pos }, false)

/-- Source `Server.process_orders` (lines 222-304): filters the queue with
`check_orders` and processes the first eligible order (every branch of the
loop body returns, so at most one order is processed per call); the
processed order is removed from the queue.  Returns the new state, the new
queue, and the returned value (`none` when no order was eligible). -/
def process_orders (s : ServerState) (orders : List Order) (dbLeverage : ℚ)
    (price : ℚ) : ServerState × List Order × Option Bool :=
  match (check_orders orders price).head? with
  | none => (s, orders, none)
  | some o =>
    let r := processOrder s o dbLeverage price
    (r.1, orders.eraseP (eligible price), some r.2)

/-- Source `Server.liquidation_check` (lines 306-318): closes the whole position at
the tick price when the price has crossed the liquidation price; the pair
returned by `decrease` is discarded, so the balance is never touched. -/
def liquidation_check (s : ServerState) (price : ℚ) : ServerState × Bool :=
  let liquidation_price := s.position.liquidation_price s.fee_rate
  if (s.position.side = 1 ∧ price ≤ liquidation_price) ∨
      (s.position.side = -1 ∧ price ≥ liquidation_price) then
    let r := s.position.decrease s.position.quantity price
    ({ s with position := r.1 }, true)
  else
    (s, false)

/-- The reachable-state invariant on positions: the side is one of
-1, 0, 1; quantity and entry price are nonnegative; and
quantity = 0 ⇔ side = Flat ⇔ entry price = 0. -/
def PosInv (p : Position) : Prop :=
  (p.side = -1 ∨ p.side = 0 ∨ p.side = 1) ∧
  0 ≤ p.quantity ∧ 0 ≤ p.entry_price ∧
  (p.quantity = 0 ↔ p.side = 0) ∧ (p.side = 0 ↔ p.entry_price = 0)

/-! ## Helper lemmas -/

/-- A list element on which the predicate is false survives `eraseP`. -/
lemma mem_eraseP_of_pred_false {α : Type} {l : List α} {p : α → Bool} {a : α}
    (h : p a = false) (hm : a ∈ l) : a ∈ l.eraseP p := by
  induction l with
  | nil => simp at hm
  | cons x xs ih =>
    rw [List.eraseP_cons]
    rcases List.mem_cons.mp hm with rfl | hmem
    · simp [h]
    · cases hp : p x <;> simp [hp, ih hmem, hmem]

/-- When `processOrder` returns `False` (a rejection), the resulting state is
the input state with only `set_leverage` applied to the position. -/
lemma processOrder_false_frame (s : ServerState) (o : Order) (dbLeverage tick : ℚ)
    (h : (processOrder s o dbLeverage tick).2 = false) :
    (processOrder s o dbLeverage tick).1
      = { s with position := (s.position.set_leverage dbLeverage).1 } := by
  simp only [processOrder] at h ⊢
  split_ifs at h ⊢ <;> rfl

/-- A sequence of `Position.increase` calls, one per (quantity, price)
pair, in order. -/
def applyIncreases (p : Position) (l : List (ℚ × ℚ)) : Position :=
  l.foldl (fun q x => q.increase x.1 x.2) p

/-- One `increase` step keeps a positive quantity positive and keeps the
entry price inside any interval containing both the old entry price and
the new price. -/
lemma increase_bounds (p : Position) (q pr lo hi : ℚ) (hq0 : 0 < p.quantity)
    (hq : 0 < q) (hlo : lo ≤ p.entry_price) (hhi : p.entry_price ≤ hi)
    (hplo : lo ≤ pr) (hphi : pr ≤ hi) :
    0 < (p.increase q pr).quantity ∧
    lo ≤ (p.increase q pr).entry_price ∧ (p.increase q pr).entry_price ≤ hi := by
  have hsum : 0 < p.quantity + q := by linarith
  refine ⟨by simp only [Position.increase]; linarith, ?_, ?_⟩
  · simp only [Position.increase]
    rw [le_div_iff₀ hsum]
    nlinarith
  · simp only [Position.increase]
    rw [div_le_iff₀ hsum]
    nlinarith

/-- Folding `applyIncreases` keeps a positive quantity positive and the entry price
inside any interval containing the current entry price and every
contributed price. -/
lemma applyIncreases_bounds (l : List (ℚ × ℚ)) (p : Position) (lo hi : ℚ)
    (hq : 0 < p.quantity) (hlo : lo ≤ p.entry_price) (hhi : p.entry_price ≤ hi)
    (hl : ∀ x ∈ l, 0 < x.1 ∧ lo ≤ x.2 ∧ x.2 ≤ hi) :
    0 < (applyIncreases p l).quantity ∧
    lo ≤ (applyIncreases p l).entry_price ∧ (applyIncreases p l).entry_price ≤ hi := by
  induction l generalizing p with
  | nil => exact ⟨hq, hlo, hhi⟩
  | cons x xs ih =>
    obtain ⟨hx1, hx2, hx3⟩ := hl x (by simp)
    obtain ⟨h1, h2, h3⟩ := increase_bounds p x.1 x.2 lo hi hq hx1 hlo hhi hx2 hx3
    exact ih (p.increase x.1 x.2) h1 h2 h3 fun y hy => hl y (List.mem_cons_of_mem x hy)

/-! ## Claims -/

/-- Claim C6: for every position and every `qty`, `price` with
`0 < qty ≤ quantity` and `price > 0`, `decrease qty price` reduces the
quantity by exactly `qty`, returns `(initial, pnl)` with
`initial = qty·entryPrice` and `pnl = side·qty·(price − entryPrice)`,
leaves leverage unchanged, and resets side to Flat and entry price to zero
exactly when the resulting quantity is zero; otherwise side and entry price
are unchanged. -/
theorem decrease_spec (p : Position) (qty price : ℚ)
    (hq : 0 < qty) (hle : qty ≤ p.quantity) (hp : 0 < price) :
    (p.decrease qty price).1.quantity = p.quantity - qty ∧
    (p.decrease qty price).2.1 = qty * p.entry_price ∧
    (p.decrease qty price).2.2 = p.side * qty * (price - p.entry_price) ∧
    (p.decrease qty price).1.leverage = p.leverage ∧
    (p.quantity - qty = 0 →
      (p.decrease qty price).1.side = 0 ∧ (p.decrease qty price).1.entry_price = 0) ∧
    (p.quantity - qty ≠ 0 →
      (p.decrease qty price).1.side = p.side ∧
      (p.decrease qty price).1.entry_price = p.entry_price) := by
  simp only [Position.decrease]
  split <;> simp_all

theorem decrease_spec_witness :
    ((0:ℚ) < 2 ∧ (2:ℚ) ≤ 2 ∧ (0:ℚ) < 50) ∧
    ((Position.mk 1 2 100 3).decrease 2 50).1.quantity = 2 - 2 ∧
    ((Position.mk 1 2 100 3).decrease 2 50).2.1 = 2 * 100 ∧
    ((Position.mk 1 2 100 3).decrease 2 50).2.2 = 1 * 2 * (50 - 100) ∧
    ((Position.mk 1 2 100 3).decrease 2 50).1.leverage = 3 ∧
    (((2:ℚ) - 2 = 0) →
      ((Position.mk 1 2 100 3).decrease 2 50).1.side = 0 ∧
      ((Position.mk 1 2 100 3).decrease 2 50).1.entry_price = 0) := by
  have h := decrease_spec (Position.mk 1 2 100 3) 2 50 (by norm_num) (by norm_num) (by norm_num)
  exact ⟨⟨by norm_num, by norm_num, by norm_num⟩, h.1, h.2.1, h.2.2.1, h.2.2.2.1, h.2.2.2.2.1⟩

/-- Claim C10: the balance credit applied on a full close,
`initial/leverage + pnl − (initial + pnl)·feeRate` with
`(initial, pnl) = decrease(quantity, price)`, equals
`Position.value(price, feeRate)` computed before the close; moreover, since
the position is open, the `leverage` used by the credit (the result of
`set_leverage`) is the position's own leverage, so the close-and-reverse
affordability check against `balance + value(price, feeRate)` compares
against exactly the balance that holds after the close leg executes. -/
theorem close_credit_eq_value (p : Position) (price f : ℚ)
    (hs : p.side ≠ 0) (hp : 0 < price) :
    (p.decrease p.quantity price).2.1 / p.leverage + (p.decrease p.quantity price).2.2
        - ((p.decrease p.quantity price).2.1 + (p.decrease p.quantity price).2.2) * f
      = p.value price f ∧
    (∀ dbLeverage : ℚ, (p.set_leverage dbLeverage).2 = p.leverage) ∧
    (∀ balance : ℚ,
      balance + ((p.decrease p.quantity price).2.1 / p.leverage
          + (p.decrease p.quantity price).2.2
          - ((p.decrease p.quantity price).2.1 + (p.decrease p.quantity price).2.2) * f)
        = balance + p.value price f) := by
  have hv : (p.decrease p.quantity price).2.1 / p.leverage + (p.decrease p.quantity price).2.2
        - ((p.decrease p.quantity price).2.1 + (p.decrease p.quantity price).2.2) * f
      = p.value price f := by
    simp only [Position.decrease, Position.value, Position.pnl]
    split <;> dsimp only
  refine ⟨hv, fun dbLeverage => ?_, fun balance => by rw [hv]⟩
  unfold Position.set_leverage
  rw [if_neg hs]

theorem close_credit_eq_value_witness :
    ((Position.mk 1 2 100 4).side ≠ 0 ∧ (0:ℚ) < 110) ∧
    ((Position.mk 1 2 100 4).decrease 2 110).2.1 / 4
        + ((Position.mk 1 2 100 4).decrease 2 110).2.2
        - (((Position.mk 1 2 100 4).decrease 2 110).2.1
            + ((Position.mk 1 2 100 4).decrease 2 110).2.2) * (1/100)
      = (Position.mk 1 2 100 4).value 110 (1/100) := by
  have h := close_credit_eq_value (Position.mk 1 2 100 4) 110 (1/100)
    (by norm_num) (by norm_num)
  exact ⟨⟨by norm_num, by norm_num⟩, h.1⟩

/-- Claim C8: membership in `check_orders` is exactly: every market order
(no limit price); every limit Buy with tick price ≤ limit price; every
limit Sell with tick price ≥ limit price.  And every ineligible order is
left in the queue by `process_orders` (which only ever removes the eligible
order it processed). -/
theorem check_orders_spec :
    (∀ (orders : List Order) (price : ℚ) (o : Order),
      o ∈ check_orders orders price ↔
        o ∈ orders ∧
          (o.price = none ∨
            ∃ lp, o.price = some lp ∧
              ((o.side = OrderSide.buy ∧ price ≤ lp) ∨
               (o.side = OrderSide.sell ∧ lp ≤ price)))) ∧
    (∀ (s : ServerState) (orders : List Order) (dbLeverage price : ℚ) (o : Order),
      o ∈ orders → eligible price o = false →
      o ∈ (process_orders s orders dbLeverage price).2.1) := by
  constructor
  · intro orders price o
    rw [check_orders, List.mem_filter]
    refine and_congr_right fun _ => ?_
    obtain ⟨oside, oqty, oprice⟩ := o
    cases oprice with
    | none => simp [eligible]
    | some lp => cases oside <;> simp [eligible]
  · intro s orders dbLeverage price o hm hin
    unfold process_orders
    cases hh : (check_orders orders price).head? with
    | none => simpa using hm
    | some o' => simpa using mem_eraseP_of_pred_false hin hm

theorem check_orders_spec_witness :
    (Order.mk OrderSide.buy 1 (some 100) ∈
        check_orders [Order.mk OrderSide.buy 1 (some 100)] 95 ↔
      Order.mk OrderSide.buy 1 (some 100) ∈ [Order.mk OrderSide.buy 1 (some 100)] ∧
        ((some (100:ℚ) : Option ℚ) = none ∨
          ∃ lp, (some (100:ℚ) : Option ℚ) = some lp ∧
            ((OrderSide.buy = OrderSide.buy ∧ (95:ℚ) ≤ lp) ∨
             (OrderSide.buy = OrderSide.sell ∧ lp ≤ 95)))) ∧
    (Order.mk OrderSide.sell 1 (some 200) ∈ [Order.mk OrderSide.sell 1 (some 200)] ∧
      eligible 95 (Order.mk OrderSide.sell 1 (some 200)) = false) ∧
    Order.mk OrderSide.sell 1 (some 200) ∈
      (process_orders ⟨1000, Position.init, 0, 1⟩
        [Order.mk OrderSide.sell 1 (some 200)] 1 95).2.1 := by
  refine ⟨check_orders_spec.1 _ 95 _, ⟨by simp, by decide⟩, ?_⟩
  exact check_orders_spec.2 ⟨1000, Position.init, 0, 1⟩ _ 1 95 _ (by simp) (by decide)

/-- Claim C1 (counterexample): a Buy limit order with limit price 100 is
eligible at tick price 95, but it executes at price 95, not at the clamped
limit price 100 the claim requires: starting Flat with balance 1000,
leverage 1, fee rate 0, the processed position's entry price is 95. -/
theorem limit_buy_fill_price_cex :
    eligible 95 (Order.mk OrderSide.buy 1 (some 100)) = true ∧
    execPrice (Order.mk OrderSide.buy 1 (some 100)) 95 = 95 ∧
    (processOrder ⟨1000, Position.init, 0, 1⟩
        (Order.mk OrderSide.buy 1 (some 100)) 1 95).1.position.entry_price = 95 ∧
    (95 : ℚ) ≠ 100 := by
  refine ⟨by decide, by decide, ?_, by norm_num⟩
  norm_num +decide [processOrder, execPrice, Position.set_leverage, Position.increase,
    Position.init]

/-- Claim C1 (amended): for every order eligible at the tick price, the
execution price is the tick price itself — the limit-price clamp of
`process_orders` (Buy: tick > limit; Sell: tick < limit) is mutually
exclusive with the eligibility condition of `check_orders`, so it never
fires for an eligible order; price improvement IS passed through. -/
theorem execPrice_eq_tick_of_eligible (o : Order) (price : ℚ)
    (h : eligible price o = true) : execPrice o price = price := by
  obtain ⟨oside, oqty, oprice⟩ := o
  cases oprice with
  | none => rfl
  | some lp =>
    cases oside with
    | buy =>
      simp only [eligible, decide_eq_true_eq] at h
      simp only [execPrice]
      rw [if_neg]
      rintro ⟨-, ⟨-, h3⟩ | ⟨hside, -⟩⟩
      · exact absurd h3 (not_lt.mpr h)
      · simp at hside
    | sell =>
      simp only [eligible, decide_eq_true_eq] at h
      simp only [execPrice]
      rw [if_neg]
      rintro ⟨-, ⟨hside, -⟩ | ⟨-, h3⟩⟩
      · simp at hside
      · exact absurd h3 (not_lt.mpr h)

theorem execPrice_eq_tick_of_eligible_witness :
    eligible 95 (Order.mk OrderSide.buy 1 (some 100)) = true ∧
    execPrice (Order.mk OrderSide.buy 1 (some 100)) 95 = 95 :=
  ⟨by decide, execPrice_eq_tick_of_eligible (Order.mk OrderSide.buy 1 (some 100)) 95 (by decide)⟩

/-- Claim C3: when the position is Long and the tick price is at or below
the liquidation price, or Short and the tick price is at or above it, the
liquidation check fires and fully closes the position at the tick price
(quantity 0, side Flat, entry price 0 — no partial liquidation), leaving
the balance unchanged (the proceeds of the forced close are discarded);
when neither trigger condition holds, the state is entirely unchanged. -/
theorem liquidation_check_spec (s : ServerState) (price : ℚ) :
    (((s.position.side = 1 ∧ price ≤ s.position.liquidation_price s.fee_rate) ∨
      (s.position.side = -1 ∧ price ≥ s.position.liquidation_price s.fee_rate)) →
      (liquidation_check s price).1.position.quantity = 0 ∧
      (liquidation_check s price).1.position.side = 0 ∧
      (liquidation_check s price).1.position.entry_price = 0 ∧
      (liquidation_check s price).1.position.leverage = s.position.leverage ∧
      (liquidation_check s price).1.balance = s.balance ∧
      (liquidation_check s price).2 = true) ∧
    (¬((s.position.side = 1 ∧ price ≤ s.position.liquidation_price s.fee_rate) ∨
       (s.position.side = -1 ∧ price ≥ s.position.liquidation_price s.fee_rate)) →
      liquidation_check s price = (s, false)) := by
  constructor
  · intro htrig
    simp [liquidation_check, Position.decrease, if_pos htrig]
  · intro htrig
    simp only [liquidation_check, if_neg htrig]

theorem liquidation_check_spec_witness :
    ((ServerState.mk 500 (Position.mk 1 1 100 10) 0 1).position.side = 1 ∧
      (90:ℚ) ≤ (Position.mk 1 1 100 10).liquidation_price 0) ∧
    (liquidation_check (ServerState.mk 500 (Position.mk 1 1 100 10) 0 1) 90).1.position.quantity
      = 0 ∧
    (liquidation_check (ServerState.mk 500 (Position.mk 1 1 100 10) 0 1) 90).1.position.side
      = 0 ∧
    (liquidation_check (ServerState.mk 500 (Position.mk 1 1 100 10) 0 1) 90).1.balance = 500 := by
  have hliq : (Position.mk 1 1 100 10).liquidation_price 0 = 90 := by
    norm_num [Position.liquidation_price]
  have htrig : ((ServerState.mk 500 (Position.mk 1 1 100 10) 0 1).position.side = 1 ∧
      (90:ℚ) ≤ (ServerState.mk 500 (Position.mk 1 1 100 10) 0 1).position.liquidation_price
        (ServerState.mk 500 (Position.mk 1 1 100 10) 0 1).fee_rate) ∨
      ((ServerState.mk 500 (Position.mk 1 1 100 10) 0 1).position.side = -1 ∧
      (90:ℚ) ≥ (ServerState.mk 500 (Position.mk 1 1 100 10) 0 1).position.liquidation_price
        (ServerState.mk 500 (Position.mk 1 1 100 10) 0 1).fee_rate) := by
    left
    exact ⟨rfl, by rw [show (ServerState.mk 500 (Position.mk 1 1 100 10) 0 1).position.liquidation_price
      (ServerState.mk 500 (Position.mk 1 1 100 10) 0 1).fee_rate
        = (Position.mk 1 1 100 10).liquidation_price 0 from rfl, hliq]⟩
  have h := (liquidation_check_spec (ServerState.mk 500 (Position.mk 1 1 100 10) 0 1) 90).1 htrig
  exact ⟨⟨rfl, by rw [hliq]⟩, h.1, h.2.1, h.2.2.2.2.1⟩

/-- Claim C5 (counterexample): a rejection at execution time does not
always leave the Position's leverage unchanged: with a Flat position of
leverage 1 and a pending leverage change to 2 in the database, processing a
market Buy of quantity 1 at tick price 1/2 is rejected (sub-minimum
notional: 1·(1/2)/2 < 1), yet the position's leverage has changed from 1
to 2, because `process_orders` calls `set_leverage` before the checks. -/
theorem rejected_order_changes_leverage_cex :
    (processOrder ⟨1000, Position.init, 0, 1⟩ (Order.mk OrderSide.buy 1 none) 2 (1/2)).2
      = false ∧
    (processOrder ⟨1000, Position.init, 0, 1⟩
        (Order.mk OrderSide.buy 1 none) 2 (1/2)).1.position.leverage = 2 ∧
    (ServerState.mk 1000 Position.init 0 1).position.leverage = 1 ∧
    (2 : ℚ) ≠ 1 := by
  refine ⟨?_, ?_, rfl, by norm_num⟩ <;>
    norm_num +decide [processOrder, execPrice, Position.set_leverage, Position.init]

/-- Claim C5 (amended): whenever `process_orders` rejects an order (returns
False) — sub-minimum notional, or insufficient funds for an open/increase
or for a close-and-reverse — the order is removed from the queue, and the
balance and the position's side, quantity and entry price are exactly
unchanged (in particular the close leg of a rejected close-and-reverse does
not partially execute); the position's leverage, however, is the one
produced by the `set_leverage` call that precedes the checks, which applies
a pending leverage change when the position is Flat. -/
theorem rejected_order_frame (s : ServerState) (orders : List Order)
    (dbLeverage price : ℚ)
    (h : (process_orders s orders dbLeverage price).2.2 = some false) :
    (process_orders s orders dbLeverage price).2.1 = orders.eraseP (eligible price) ∧
    (process_orders s orders dbLeverage price).1.balance = s.balance ∧
    (process_orders s orders dbLeverage price).1.position.side = s.position.side ∧
    (process_orders s orders dbLeverage price).1.position.quantity
      = s.position.quantity ∧
    (process_orders s orders dbLeverage price).1.position.entry_price
      = s.position.entry_price ∧
    (process_orders s orders dbLeverage price).1.position.leverage
      = (s.position.set_leverage dbLeverage).1.leverage := by
  unfold process_orders at *
  cases hh : (check_orders orders price).head? with
  | none =>
    rw [hh] at h
    simp at h
  | some o =>
    rw [hh] at h
    dsimp only at h ⊢
    have hframe := processOrder_false_frame s o dbLeverage price (by simpa using h)
    rw [hframe]
    refine ⟨rfl, rfl, ?_, ?_, ?_, rfl⟩ <;>
      · simp only [Position.set_leverage]
        split <;> rfl

theorem rejected_order_frame_witness :
    (process_orders (ServerState.mk 1000 Position.init 0 1)
        [Order.mk OrderSide.buy 1 none] 2 (1/2)).2.2 = some false ∧
    (process_orders (ServerState.mk 1000 Position.init 0 1)
        [Order.mk OrderSide.buy 1 none] 2 (1/2)).2.1 = [] ∧
    (process_orders (ServerState.mk 1000 Position.init 0 1)
        [Order.mk OrderSide.buy 1 none] 2 (1/2)).1.balance = 1000 ∧
    (process_orders (ServerState.mk 1000 Position.init 0 1)
        [Order.mk OrderSide.buy 1 none] 2 (1/2)).1.position.quantity = 0 := by
  have hfalse : (process_orders (ServerState.mk 1000 Position.init 0 1)
      [Order.mk OrderSide.buy 1 none] 2 (1/2)).2.2 = some false := by
    norm_num +decide [process_orders, processOrder, check_orders, eligible, execPrice,
      Position.set_leverage, Position.init]
  have h := rejected_order_frame (ServerState.mk 1000 Position.init 0 1)
    [Order.mk OrderSide.buy 1 none] 2 (1/2) hfalse
  refine ⟨hfalse, ?_, h.2.1, h.2.2.2.1⟩
  rw [h.1]
  decide

/-- Claim C4 (counterexample): for the Short position with quantity 1,
entry price 100, leverage 1 and fee rate 1/1000 (which satisfies
0 ≤ feeRate < 1), the margin evaluated at the computed liquidation price is
-99.80, not -100: `liquidationPrice(1/1000) = 199.8` and
`margin(199.8) = -99.8` exactly (no rounding is involved), off from -100 by
0.2, far beyond rounding epsilon. -/
theorem margin_at_liquidation_price_cex :
    ((Position.mk (-1) 1 100 1).side ≠ 0 ∧ 0 < (Position.mk (-1) 1 100 1).quantity ∧
      0 < (Position.mk (-1) 1 100 1).entry_price ∧ 1 ≤ (Position.mk (-1) 1 100 1).leverage ∧
      (0:ℚ) ≤ 1/1000 ∧ (1/1000:ℚ) < 1) ∧
    (Position.mk (-1) 1 100 1).liquidation_price (1/1000) = 999/5 ∧
    (Position.mk (-1) 1 100 1).margin
        ((Position.mk (-1) 1 100 1).liquidation_price (1/1000)) = -499/5 ∧
    (-499/5 : ℚ) ≠ -100 := by
  refine ⟨⟨by norm_num, by norm_num, by norm_num, by norm_num, by norm_num, by norm_num⟩,
    ?_, ?_, by norm_num⟩
  · norm_num [Position.liquidation_price]
  · norm_num [Position.margin, Position.pnl, Position.liquidation_price, quantize2,
      roundHalfEven]

/-- Claim C4 (amended): for a position with side ≠ Flat (side ±1,
quantity > 0, entry price > 0, leverage ≥ 1) and any fee rate, the margin
at the computed liquidation price equals
`−100 + 100·quantity·feeRate·(leverage − side)` rounded to two decimals; in
particular it is exactly −100 when the fee rate is 0, but not for a
general fee rate with 0 ≤ feeRate < 1. -/
theorem margin_at_liquidation_price (p : Position) (f : ℚ)
    (hs : p.side = 1 ∨ p.side = -1) (hq : 0 < p.quantity)
    (he : 0 < p.entry_price) (hl : 1 ≤ p.leverage) :
    p.margin (p.liquidation_price f)
      = quantize2 (-100 + 100 * p.quantity * f * (p.leverage - p.side)) ∧
    (f = 0 → p.margin (p.liquidation_price 0) = -100) := by
  have hL : p.leverage ≠ 0 := by linarith
  have hinner : 100 * p.pnl (p.liquidation_price f)
        / (p.quantity * p.entry_price / p.leverage)
      = -100 + 100 * p.quantity * f * (p.leverage - p.side) := by
    simp only [Position.pnl, Position.liquidation_price]
    rcases hs with h | h <;> rw [h] <;> field_simp <;> ring
  have hside : p.side ≠ 0 := by rcases hs with h | h <;> rw [h] <;> norm_num
  have hmain : p.margin (p.liquidation_price f)
      = quantize2 (-100 + 100 * p.quantity * f * (p.leverage - p.side)) := by
    rw [Position.margin, if_pos hside, hinner]
  refine ⟨hmain, fun hf => ?_⟩
  subst hf
  rw [hmain]
  norm_num [quantize2, roundHalfEven]

theorem margin_at_liquidation_price_witness :
    (((Position.mk 1 2 100 10).side = 1 ∨ (Position.mk 1 2 100 10).side = -1) ∧
      0 < (Position.mk 1 2 100 10).quantity ∧ 0 < (Position.mk 1 2 100 10).entry_price ∧
      1 ≤ (Position.mk 1 2 100 10).leverage) ∧
    (Position.mk 1 2 100 10).margin ((Position.mk 1 2 100 10).liquidation_price 0)
      = -100 := by
  have h := margin_at_liquidation_price (Position.mk 1 2 100 10) 0
    (Or.inl rfl) (by norm_num) (by norm_num) (by norm_num)
  exact ⟨⟨Or.inl rfl, by norm_num, by norm_num, by norm_num⟩, h.2 rfl⟩

/-- Claim C7: each `increase(qty, price)` sets the entry price to the
quantity-weighted average `(oldQty·oldEntry + qty·price)/(oldQty + qty)`
and grows the quantity by `qty`; and for every nonempty sequence of valid
increases (each qty > 0, price > 0) starting from the Flat initial
position, the resulting entry price lies between every lower bound and
every upper bound of the contributed prices (in particular between their
minimum and maximum). -/
theorem increase_weighted_average :
    (∀ (p : Position) (qty price : ℚ),
      (p.increase qty price).entry_price
        = (p.quantity * p.entry_price + qty * price) / (p.quantity + qty) ∧
      (p.increase qty price).quantity = p.quantity + qty) ∧
    (∀ (x : ℚ × ℚ) (xs : List (ℚ × ℚ)) (lo hi : ℚ),
      (∀ y ∈ x :: xs, 0 < y.1 ∧ 0 < y.2) →
      (∀ y ∈ x :: xs, lo ≤ y.2 ∧ y.2 ≤ hi) →
      lo ≤ (applyIncreases Position.init (x :: xs)).entry_price ∧
      (applyIncreases Position.init (x :: xs)).entry_price ≤ hi) := by
  refine ⟨fun p qty price => ⟨rfl, rfl⟩, fun x xs lo hi hpos hbnd => ?_⟩
  obtain ⟨hx1, hx2⟩ := hpos x (by simp)
  obtain ⟨hb1, hb2⟩ := hbnd x (by simp)
  have hfirst : applyIncreases Position.init (x :: xs)
      = applyIncreases (Position.init.increase x.1 x.2) xs := rfl
  have hq : (Position.init.increase x.1 x.2).quantity = x.1 := by
    simp [Position.increase, Position.init]
  have he : (Position.init.increase x.1 x.2).entry_price = x.2 := by
    simp only [Position.increase, Position.init]
    rw [zero_mul, zero_add, zero_add]
    exact mul_div_cancel_left₀ x.2 hx1.ne'
  rw [hfirst]
  have h := applyIncreases_bounds xs (Position.init.increase x.1 x.2) lo hi
    (by rw [hq]; exact hx1) (by rw [he]; exact hb1) (by rw [he]; exact hb2)
    (fun y hy => ⟨(hpos y (List.mem_cons_of_mem x hy)).1,
      (hbnd y (List.mem_cons_of_mem x hy)).1, (hbnd y (List.mem_cons_of_mem x hy)).2⟩)
  exact ⟨h.2.1, h.2.2⟩

theorem increase_weighted_average_witness :
    ((∀ y ∈ [((1:ℚ), (100:ℚ)), (3, 200)], 0 < y.1 ∧ 0 < y.2) ∧
      (∀ y ∈ [((1:ℚ), (100:ℚ)), (3, 200)], 100 ≤ y.2 ∧ y.2 ≤ 200)) ∧
    100 ≤ (applyIncreases Position.init [(1, 100), (3, 200)]).entry_price ∧
    (applyIncreases Position.init [(1, 100), (3, 200)]).entry_price ≤ 200 := by
  refine ⟨⟨?_, ?_⟩, ?_⟩
  · intro y hy
    rcases List.mem_pair.mp hy with rfl | rfl <;> norm_num
  · intro y hy
    rcases List.mem_pair.mp hy with rfl | rfl <;> norm_num
  · refine increase_weighted_average.2 (1, 100) [(3, 200)] 100 200 ?_ ?_ <;>
      · intro y hy
        rcases List.mem_pair.mp hy with rfl | rfl <;> norm_num

/-- Claim C9: starting Flat with any balance, leverage 1, fee rate 0 and
minimum notional ≤ 100, processing a Buy of quantity 1 at execution price
100 and then a Sell of quantity 1 at execution price 100 leaves the
balance at its starting value and the position Flat (quantity 0, entry
price 0).  (When the balance cannot afford the Buy, both orders are
rejected and the state is likewise unchanged.) -/
theorem round_trip (b u : ℚ) (hu : u ≤ 100) :
    (processOrder (processOrder (ServerState.mk b Position.init 0 u)
          (Order.mk OrderSide.buy 1 none) 1 100).1
        (Order.mk OrderSide.sell 1 none) 1 100).1.balance = b ∧
    (processOrder (processOrder (ServerState.mk b Position.init 0 u)
          (Order.mk OrderSide.buy 1 none) 1 100).1
        (Order.mk OrderSide.sell 1 none) 1 100).1.position.side = 0 ∧
    (processOrder (processOrder (ServerState.mk b Position.init 0 u)
          (Order.mk OrderSide.buy 1 none) 1 100).1
        (Order.mk OrderSide.sell 1 none) 1 100).1.position.quantity = 0 ∧
    (processOrder (processOrder (ServerState.mk b Position.init 0 u)
          (Order.mk OrderSide.buy 1 none) 1 100).1
        (Order.mk OrderSide.sell 1 none) 1 100).1.position.entry_price = 0 := by
  have hnu : ¬((100:ℚ) < u) := not_lt.mpr hu
  by_cases hb : (100:ℚ) ≤ b
  · have h1 : processOrder (ServerState.mk b Position.init 0 u)
        (Order.mk OrderSide.buy 1 none) 1 100
        = (ServerState.mk (b - 100) (Position.mk 1 1 100 1) 0 u, true) := by
      simp only [processOrder, execPrice, Position.set_leverage, Position.increase,
        Position.init]
      norm_num +decide [hnu, hb]
    rw [h1]
    have h2 : processOrder (ServerState.mk (b - 100) (Position.mk 1 1 100 1) 0 u)
        (Order.mk OrderSide.sell 1 none) 1 100
        = (ServerState.mk b (Position.mk 0 0 0 1) 0 u, true) := by
      simp only [processOrder, execPrice, Position.set_leverage, Position.decrease,
        Position.increase]
      norm_num +decide [hnu]
    rw [h2]
    norm_num
  · have h1 : processOrder (ServerState.mk b Position.init 0 u)
        (Order.mk OrderSide.buy 1 none) 1 100
        = (ServerState.mk b (Position.mk 0 0 0 1) 0 u, false) := by
      simp only [processOrder, execPrice, Position.set_leverage, Position.increase,
        Position.init]
      norm_num +decide [hnu, hb]
    rw [h1]
    have h2 : processOrder (ServerState.mk b (Position.mk 0 0 0 1) 0 u)
        (Order.mk OrderSide.sell 1 none) 1 100
        = (ServerState.mk b (Position.mk 0 0 0 1) 0 u, false) := by
      simp only [processOrder, execPrice, Position.set_leverage, Position.increase]
      norm_num +decide [hnu, hb]
    rw [h2]
    norm_num

theorem round_trip_witness :
    ((1:ℚ) ≤ 100) ∧
    (processOrder (processOrder (ServerState.mk 250 Position.init 0 1)
          (Order.mk OrderSide.buy 1 none) 1 100).1
        (Order.mk OrderSide.sell 1 none) 1 100).1.balance = 250 ∧
    (processOrder (processOrder (ServerState.mk 250 Position.init 0 1)
          (Order.mk OrderSide.buy 1 none) 1 100).1
        (Order.mk OrderSide.sell 1 none) 1 100).1.position.side = 0 := by
  have h := round_trip 250 1 (by norm_num)
  exact ⟨by norm_num, h.1, h.2.1⟩

/-- The invariant `PosInv` holds for a freshly closed (Flat) position. -/
lemma posInv_flat (lev : ℚ) : PosInv ⟨0, 0, 0, lev⟩ := by
  norm_num [PosInv]

/-- A full close — `decrease(quantity, price)` with the whole quantity —
always yields the Flat position with entry price 0 (leverage retained). -/
lemma decrease_full_flat (p : Position) (price : ℚ) :
    (p.decrease p.quantity price).1 = ⟨0, 0, 0, p.leverage⟩ := by
  simp [Position.decrease]

/-- Setting leverage via `set_leverage` only touches the leverage field, so it preserves `PosInv`. -/
lemma posInv_set_leverage (p : Position) (lev : ℚ) (h : PosInv p) :
    PosInv (p.set_leverage lev).1 := by
  unfold Position.set_leverage
  split
  · exact ⟨h.1, h.2.1, h.2.2.1, h.2.2.2.1, h.2.2.2.2⟩
  · exact h

/-- Setting the side to ±1 and increasing with a positive quantity at a
positive price yields a position satisfying `PosInv`. -/
lemma posInv_open_increase (p : Position) (sgn qty price : ℚ)
    (hsgn : sgn = 1 ∨ sgn = -1) (hq : 0 < qty) (hp : 0 < price)
    (hq0 : 0 ≤ p.quantity) (he0 : 0 ≤ p.entry_price) :
    PosInv (Position.increase { p with side := sgn } qty price) := by
  have hqsum : 0 < p.quantity + qty := by linarith
  have hnum : 0 < p.quantity * p.entry_price + qty * price :=
    add_pos_of_nonneg_of_pos (mul_nonneg hq0 he0) (mul_pos hq hp)
  have hent : 0 < (p.quantity * p.entry_price + qty * price) / (p.quantity + qty) :=
    div_pos hnum hqsum
  have hrw : Position.increase { p with side := sgn } qty price
      = ⟨sgn, p.quantity + qty,
          (p.quantity * p.entry_price + qty * price) / (p.quantity + qty), p.leverage⟩ := rfl
  rw [hrw]
  refine ⟨?_, by dsimp only; linarith, le_of_lt hent, ?_, ?_⟩
  · rcases hsgn with rfl | rfl
    · right; right; rfl
    · left; rfl
  · exact iff_of_false (by dsimp only; linarith)
      (by rcases hsgn with rfl | rfl <;> norm_num)
  · exact iff_of_false (by rcases hsgn with rfl | rfl <;> norm_num)
      (by dsimp only; exact hent.ne')

/-- A valid `decrease` (0 < qty ≤ quantity) preserves `PosInv`. -/
lemma posInv_decrease (p : Position) (qty price : ℚ)
    (hinv : PosInv p) (hq : 0 < qty) (hle : qty ≤ p.quantity) :
    PosInv (p.decrease qty price).1 := by
  obtain ⟨hside, hq0, he0, hqs, hse⟩ := hinv
  simp only [Position.decrease]
  split
  next h =>
    dsimp only
    rw [h]
    exact posInv_flat p.leverage
  next h =>
    dsimp only
    have hsne : p.side ≠ 0 := by
      intro h0
      have := hqs.mpr h0
      linarith
    refine ⟨hside, ?_, he0, iff_of_false h hsne, hse⟩
    show (0:ℚ) ≤ p.quantity - qty
    linarith

/-- Claim C2: the invariant `quantity = 0 ⇔ side = Flat ⇔ entryPrice = 0`
(together with side ∈ {-1, 0, 1} and nonnegativity of quantity and entry
price) holds of the initial Flat state and is preserved by every engine
operation on the Position: order processing (opening or increasing,
decreasing or fully closing, close-and-reverse, and each rejection path)
under the validity conditions of the inputs (positive order quantity,
positive leverage values, positive minimum order value), and the forced
liquidation check unconditionally. -/
theorem engine_preserves_invariant :
    PosInv Position.init ∧
    (∀ (s : ServerState) (o : Order) (dbLeverage tick : ℚ),
      0 < o.quantity → 0 < dbLeverage → 0 < s.position.leverage → 0 < s.unit →
      PosInv s.position → PosInv (processOrder s o dbLeverage tick).1.position) ∧
    (∀ (s : ServerState) (price : ℚ),
      PosInv s.position → PosInv (liquidation_check s price).1.position) := by
  refine ⟨by norm_num [PosInv, Position.init], ?_, ?_⟩
  · intro s o dbLeverage tick hq hdb hlev hunit hinv
    have hpos1 : PosInv (s.position.set_leverage dbLeverage).1 :=
      posInv_set_leverage _ _ hinv
    have hlev2 : 0 < (s.position.set_leverage dbLeverage).2 := by
      unfold Position.set_leverage
      split
      · exact hdb
      · exact hlev
    have hpp : ¬(o.quantity * execPrice o tick / (s.position.set_leverage dbLeverage).2
          < s.unit) → 0 < execPrice o tick := by
      intro hmin
      have hdnn : 0 < o.quantity * execPrice o tick /
          (s.position.set_leverage dbLeverage).2 := lt_of_lt_of_le hunit (not_lt.mp hmin)
      have hmulpos : 0 < o.quantity * execPrice o tick := by
        rcases div_pos_iff.mp hdnn with ⟨ha, _⟩ | ⟨_, hb⟩
        · exact ha
        · exact absurd hlev2 (not_lt.mpr hb.le)
      by_contra hnp
      push_neg at hnp
      nlinarith
    simp only [processOrder]
    split_ifs with h1 h2 h3 h4 h5 h6 h7
    · exact hpos1
    · exact posInv_open_increase _ 1 o.quantity (execPrice o tick) (Or.inl rfl) hq
        (hpp h1) hpos1.2.1 hpos1.2.2.1
    · exact posInv_open_increase _ (-1) o.quantity (execPrice o tick) (Or.inr rfl) hq
        (hpp h1) hpos1.2.1 hpos1.2.2.1
    · exact hpos1
    · exact posInv_decrease _ o.quantity (execPrice o tick) hpos1 hq h5
    · have hrem : 0 < o.quantity - (s.position.set_leverage dbLeverage).1.quantity :=
        sub_pos.mpr (not_le.mp h5)
      rw [decrease_full_flat]
      exact posInv_open_increase ⟨0, 0, 0, (s.position.set_leverage dbLeverage).1.leverage⟩
        1 _ (execPrice o tick) (Or.inl rfl) hrem (hpp h1) le_rfl le_rfl
    · have hrem : 0 < o.quantity - (s.position.set_leverage dbLeverage).1.quantity :=
        sub_pos.mpr (not_le.mp h5)
      rw [decrease_full_flat]
      exact posInv_open_increase ⟨0, 0, 0, (s.position.set_leverage dbLeverage).1.leverage⟩
        (-1) _ (execPrice o tick) (Or.inr rfl) hrem (hpp h1) le_rfl le_rfl
    · exact hpos1
  · intro s price hinv
    simp only [liquidation_check]
    split_ifs with h
    · rw [decrease_full_flat]
      exact posInv_flat _
    · exact hinv

theorem engine_preserves_invariant_witness :
    ((0:ℚ) < 1 ∧ (0:ℚ) < 2 ∧ 0 < Position.init.leverage ∧ (0:ℚ) < 1) ∧
    PosInv (processOrder (ServerState.mk 1000 Position.init 0 1)
        (Order.mk OrderSide.buy 1 none) 2 100).1.position ∧
    PosInv (liquidation_check (ServerState.mk 1000 Position.init 0 1) 95).1.position := by
  have h := engine_preserves_invariant
  refine ⟨⟨by norm_num, by norm_num, by norm_num [Position.init], by norm_num⟩, ?_, ?_⟩
  · exact h.2.1 (ServerState.mk 1000 Position.init 0 1) (Order.mk OrderSide.buy 1 none)
      2 100 (by norm_num) (by norm_num) (by norm_num [Position.init]) (by norm_num) h.1
  · exact h.2.2 (ServerState.mk 1000 Position.init 0 1) 95 h.1

end FuturesSim
